import Mathlib

/-!
Verification of the folder and JIT lowering of a tape-machine (brainfuck)
compiler (src/src/lib.rs).

The embedding follows the source:

* `Instruction` mirrors the Rust enum `Instruction`.  The `Add` payload is
  the bit pattern of the Rust `i8` delta viewed as a natural number below
  256 (so `Add(-1)` is `add 255`); `wrapping_add` on `i8` is addition
  modulo 256 on those bits.  The `Move` and `AddTo` payloads are the
  mathematical integers carried by the Rust `i32`.
* `foldByte` is one iteration of the `for b in source` lexing/folding loop
  of `Program::new`.  The instruction list is kept most-recent-first, so
  Rust's `instructions.last_mut()` is the head and `drain(len - m..)` drops
  a prefix; `foldSource` folds a whole source and restores source order.
* `moveWrap` is the branch-free wrap emitted for `Instruction::Move` (and
  reused for the `AddTo` destination): the unwrapped pointer `p + k`, and
  a single conditional correction by 30000 chosen by the sign of `k`.
* `execInstr` gives the state transformation of the straight-line lowering
  of `Add`, `Move`, `Clear` and `AddTo` on a state of one pointer and a
  tape; loads and stores are byte-sized, hence the `% 256`.  The `AddTo`
  lowering loads both cells, then stores zero to the source and finally the
  sum to the destination, so a destination equal to the source ends up
  holding the sum.  Control flow and I/O instructions are handled by the
  dedicated loop runners and host models below.
* `lowerGo`/`programNew` model the bracket handling of the lowering loop of
  `Program::new`: `JumpRight` pushes on the block stack, `JumpLeft` pops,
  popping an empty stack aborts with `UnbalancedBrackets(']', i)` where `i`
  is the index in the *instruction stream*, and a non-empty stack at the
  end aborts with `UnbalancedBrackets(']', source.len())`.
* `hostRead` and `hostWrite` model the host I/O shims `read` and `write`,
  with the platform (`cfg!(target_os = "windows")`) as a boolean parameter
  and the behaviour of the standard streams as explicit data.
-/

inductive Instruction where
  | add (n : Nat)
  | move (k : Int)
  | input
  | output
  | jumpRight
  | jumpLeft
  | clear
  | addTo (k : Int)
  deriving DecidableEq

/-- One step of the lexing/folding loop of `Program::new` (src/src/lib.rs,
lines 74-114).  `acc` holds the instructions emitted so far, most recent
first; `b` is the incoming source byte. -/
def foldByte (acc : List Instruction) (b : Nat) : List Instruction :=
  if b = 43 ∨ b = 45 then
    -- b'+' | b'-' : fold into a trailing Add, else emit Add(±1)
    let inc : Nat := if b = 43 then 1 else 255
    match acc with
    | Instruction.add v :: rest => Instruction.add ((v + inc) % 256) :: rest
    | _ => Instruction.add inc :: acc
  else if b = 46 then Instruction.output :: acc
  else if b = 44 then Instruction.input :: acc
  else if b = 62 ∨ b = 60 then
    -- b'>' | b'<' : fold into a trailing Move, else emit Move(±1)
    let inc : Int := if b = 62 then 1 else -1
    match acc with
    | Instruction.move v :: rest => Instruction.move (v + inc) :: rest
    | _ => Instruction.move inc :: acc
  else if b = 91 then Instruction.jumpRight :: acc
  else if b = 93 then
    -- b']' : try the Clear and AddTo loop idioms, else emit JumpLeft
    match acc with
    | Instruction.add n :: Instruction.jumpRight :: rest =>
        if n % 2 = 1 then Instruction.clear :: rest
        else Instruction.jumpLeft :: acc
    | Instruction.move y :: Instruction.add 1 :: Instruction.move x ::
        Instruction.add 255 :: Instruction.jumpRight :: rest =>
        if x = -y then Instruction.addTo x :: rest
        else Instruction.jumpLeft :: acc
    | _ => Instruction.jumpLeft :: acc
  else acc

/-- The full lexing/folding pass of `Program::new`, in source order. -/
def foldSource (source : List Nat) : List Instruction :=
  (source.foldl foldByte []).reverse

/-- The eight command bytes `+ - . , > < [ ]`; all others are comments. -/
def isCommandByte (b : Nat) : Bool :=
  b = 43 || b = 45 || b = 46 || b = 44 || b = 62 || b = 60 || b = 91 || b = 93

/-- Machine state for the straight-line instructions: the data pointer and
the tape.  The tape is total over `Int` so that out-of-range addresses are
representable. -/
structure State where
  pointer : Int
  mem : Int → Nat

/-- The branch-free modular wrap emitted for `Instruction::Move`
(src/src/lib.rs, lines 193-214) and for the `AddTo` destination (lines
287-300): compute `p + k`, and a wrapped alternative corrected by 30000 in
the direction given by the sign of `k`; select the wrapped value exactly
when `p + k` is out of range. -/
def moveWrap (p k : Int) : Int :=
  if 0 < k then
    if p + k < 30000 then p + k else p + (k - 30000)
  else
    if p + k < 0 then p + (k + 30000) else p + k

/-- State transformation of the lowering of the straight-line instructions
`Add`, `Move`, `Clear`, `AddTo` (src/src/lib.rs, lines 184-214 and
282-312).  `Add` sign-extends its `i8` delta and adds it to the loaded
byte; on a byte-sized store this is addition of the `u8` bits modulo 256.
`AddTo` stores zero to the source first and the byte sum to the
destination second.  I/O and bracket instructions do not change pointer or
tape directly and are modelled separately. -/
def execInstr (s : State) : Instruction → State
  | Instruction.add n =>
      { s with mem := fun q => if q = s.pointer then (s.mem s.pointer + n) % 256 else s.mem q }
  | Instruction.move k => { s with pointer := moveWrap s.pointer k }
  | Instruction.clear =>
      { s with mem := fun q => if q = s.pointer then 0 else s.mem q }
  | Instruction.addTo k =>
      let d := moveWrap s.pointer k
      let sum := (s.mem d + s.mem s.pointer) % 256
      { s with mem := fun q => if q = d then sum else if q = s.pointer then 0 else s.mem q }
  | _ => s

/-- The loop `[ Add(n) ]` acting on the cell under the pointer, per the
`JumpRight`/`JumpLeft` lowering: test the cell, exit with the final cell
value when it is zero, otherwise run the body `Add(n)` and test again.
`fuel` bounds the number of body executions; `none` means the loop did not
finish within `fuel` iterations. -/
def clearLoop (n : Nat) : Nat → Nat → Option Nat
  | 0, v => if v = 0 then some v else none
  | fuel + 1, v => if v = 0 then some v else clearLoop n fuel ((v + n) % 256)

/-- The literal (unfused) loop `[ Add(255) Move(0) Add(1) Move(0) ]` acting
on the cell under the pointer: both moves are by zero, so each iteration
adds 255 then 1 to the same cell. -/
def literalLoop : Nat → Nat → Option Nat
  | 0, v => if v = 0 then some v else none
  | fuel + 1, v => if v = 0 then some v else literalLoop fuel (((v + 255) % 256 + 1) % 256)

/-- Bracket handling of the lowering loop of `Program::new` (src/src/lib.rs,
lines 183, 250-268, 316-318).  `i` is the index of the current instruction
in the folded stream, `depth` the height of the block stack.  A `JumpLeft`
on an empty stack aborts with `(']', i)`; a non-empty stack after the loop
aborts with `(']', srcLen)`. -/
def lowerGo (srcLen : Nat) : List Instruction → Nat → Nat → Except (Char × Nat) Unit
  | [], _, depth => if depth = 0 then Except.ok () else Except.error (']', srcLen)
  | Instruction.jumpRight :: rest, i, depth => lowerGo srcLen rest (i + 1) (depth + 1)
  | Instruction.jumpLeft :: rest, i, depth =>
      match depth with
      | 0 => Except.error (']', i)
      | d + 1 => lowerGo srcLen rest (i + 1) d
  | _ :: rest, i, depth => lowerGo srcLen rest (i + 1) depth

/-- `Program::new` up to its bracket-matching result: fold the source and
run the lowering loop.  `Except.ok ()` is a successful compilation,
`Except.error e` the `UnbalancedBrackets` payload. -/
def programNew (source : List Nat) : Except (Char × Nat) Unit :=
  lowerGo source.length (foldSource source) 0 0

/-- Modelled from the spec: proper nesting of the bracket bytes of a
source, by a running depth counter.  A `]` at depth zero is unmatched, and
so is any positive depth left at the end. -/
def balancedFrom (depth : Nat) : List Nat → Bool
  | [] => depth = 0
  | b :: rest =>
      if b = 91 then balancedFrom (depth + 1) rest
      else if b = 93 then
        match depth with
        | 0 => false
        | d + 1 => balancedFrom d rest
      else balancedFrom depth rest

/-- Index (in the instruction stream) of the first `JumpLeft` that finds the
block stack empty, tracked by depth like `lowerGo`. -/
def firstUnmatchedClose : List Instruction → Nat → Nat → Option Nat
  | [], _, _ => none
  | Instruction.jumpRight :: rest, i, depth => firstUnmatchedClose rest (i + 1) (depth + 1)
  | Instruction.jumpLeft :: rest, i, depth =>
      match depth with
      | 0 => some i
      | d + 1 => firstUnmatchedClose rest (i + 1) d
  | _ :: rest, i, depth => firstUnmatchedClose rest (i + 1) depth

/-- A bracket, for relating the bracket structure of sources and
instruction streams. -/
inductive Br where
  | op
  | cl
  deriving DecidableEq

/-- Cancel-reduction state: `(a, b)` counts closes seen at depth zero and
the current depth.  A word is properly nested exactly when it reduces to
`(0, 0)`. -/
def redStep : Nat × Nat → Br → Nat × Nat
  | (a, b), Br.op => (a, b + 1)
  | (a, b), Br.cl =>
      match b with
      | 0 => (a + 1, 0)
      | c + 1 => (a, c)

/-- Brackets contributed by one instruction. -/
def brOfInstr : Instruction → List Br
  | Instruction.jumpRight => [Br.op]
  | Instruction.jumpLeft => [Br.cl]
  | _ => []

/-- Bracket word of an instruction stream. -/
def bw : List Instruction → List Br
  | [] => []
  | i :: rest => brOfInstr i ++ bw rest

/-- Brackets contributed by one source byte. -/
def brOfByte (b : Nat) : List Br :=
  if b = 91 then [Br.op] else if b = 93 then [Br.cl] else []

/-- Bracket word of a source. -/
def bws : List Nat → List Br
  | [] => []
  | b :: rest => brOfByte b ++ bws rest

/-- Sum of the `u8` contributions of a `+`/`-` run (1 for `+`, 255 for
`-`); modulo 256 this is the sum of the ±1 contributions. -/
def plusSum : List Nat → Nat
  | [] => 0
  | b :: rest => (if b = 43 then 1 else 255) + plusSum rest

/-- Algebraic sum of the contributions of a `>`/`<` run. -/
def moveSum : List Nat → Int
  | [] => 0
  | b :: rest => (if b = 62 then 1 else -1) + moveSum rest

/-- Does an instruction list start with an `Add`? -/
def headIsAdd : List Instruction → Bool
  | Instruction.add _ :: _ => true
  | _ => false

/-- Does an instruction list start with a `Move`? -/
def headIsMove : List Instruction → Bool
  | Instruction.move _ :: _ => true
  | _ => false

/-- Is the instruction an `Add`? -/
def isAdd : Instruction → Bool
  | Instruction.add _ => true
  | _ => false

/-- Is the instruction a `Move`? -/
def isMove : Instruction → Bool
  | Instruction.move _ => true
  | _ => false

/-- Two instructions may be adjacent in folded output: not both `Add`, not
both `Move`. -/
def adjOk (i j : Instruction) : Bool :=
  !(isAdd i && isAdd j) && !(isMove i && isMove j)

/-- Outcome of one `read_exact` call on standard input: a byte, end of
stream, or a genuine I/O error (abstracted by a code). -/
inductive ReadOutcome where
  | byte (b : Nat)
  | eofMark
  | ioErr (e : Nat)
  deriving DecidableEq

/-- The host `read` shim (src/src/lib.rs, lines 406-427): loop reading one
byte; `UnexpectedEof` turns into the byte 0; any other error is returned
(boxed in the source, here `some e`); on Windows a carriage return is
discarded and the read retried; otherwise the byte is stored through the
cell address and a null error (here `none`) is returned.  The result is
`(stored byte, returned error)`; an exhausted event list reads as end of
stream. -/
def hostRead (windows : Bool) : List ReadOutcome → Option Nat × Option Nat
  | [] => (some 0, none)
  | ReadOutcome.byte b :: rest =>
      if windows = true ∧ b = 13 then hostRead windows rest else (some b, none)
  | ReadOutcome.eofMark :: _ => (some 0, none)
  | ReadOutcome.ioErr e :: _ => (none, some e)

/-- Standard output as seen by the host `write` shim: bytes buffered by
`write_all` and bytes already flushed. -/
structure OutState where
  buffered : List Nat
  flushed : List Nat
  deriving DecidableEq

/-- The host `write` shim (src/src/lib.rs, lines 391-404): on Windows any
byte with the high bit set returns a null error before touching standard
output; otherwise `write_all` appends the byte and `flush` moves the
buffer to the flushed stream.  `ioOk` abstracts whether the write/flush
pair succeeds; on failure the boxed error is modelled by `some 0`. -/
def hostWrite (windows : Bool) (value : Nat) (s : OutState) (ioOk : Bool) :
    OutState × Option Nat :=
  if windows = true ∧ 128 ≤ value then (s, none)
  else if ioOk then
    ({ buffered := [], flushed := s.flushed ++ s.buffered ++ [value] }, none)
  else (s, some 0)

section Lemmas

/-- Inside the single-wrap window `-30000 ≤ p + k < 60000` the conditional
correction emitted for `Move`/`AddTo` agrees with true modular wrapping. -/
theorem moveWrap_emod (p k : Int) (h0 : 0 ≤ p) (h1 : p < 30000)
    (h2 : -30000 ≤ p + k) (h3 : p + k < 60000) :
    moveWrap p k = ((p + k) % 30000 + 30000) % 30000 := by
  unfold moveWrap
  split_ifs <;> omega

end Lemmas

def sampleZeroState : State := ⟨0, fun _ => 0⟩

def sampleFiveState : State := ⟨0, fun _ => 5⟩

def sampleEdgeState : State := ⟨29999, fun _ => 0⟩

/-- C1 (amended): for a pointer `p ∈ [0, 30000)` and a displacement `k`
with `-30000 ≤ p + k < 60000` (in particular any `|k| ≤ 30000`),
executing `Move(k)` lands the pointer at
`((p + k) mod 30000 + 30000) mod 30000`.  Outside that window the single
conditional correction wraps at most once and misses the modular value. -/
theorem move_single_wrap_is_modular (s : State) (k : Int)
    (h0 : 0 ≤ s.pointer) (h1 : s.pointer < 30000)
    (h2 : -30000 ≤ s.pointer + k) (h3 : s.pointer + k < 60000) :
    (execInstr s (Instruction.move k)).pointer =
      ((s.pointer + k) % 30000 + 30000) % 30000 := by
  show moveWrap s.pointer k = _
  exact moveWrap_emod s.pointer k h0 h1 h2 h3

/-- C1 counterexample: from pointer 0, `Move(60000)` lands at 30000 (out of
the tape altogether), while the claimed formula gives 0. -/
theorem move_single_wrap_is_modular_cex :
    (execInstr sampleZeroState (Instruction.move 60000)).pointer = 30000 ∧
    (((0 : Int) + 60000) % 30000 + 30000) % 30000 = 0 ∧ (30000 : Int) ≠ 0 := by
  refine ⟨?_, by decide, by decide⟩
  show moveWrap 0 60000 = 30000
  decide

/-- C1 witness: `Move(1)` from pointer 29999 wraps to 0, matching the
modular formula. -/
theorem move_single_wrap_is_modular_witness :
    (execInstr sampleEdgeState (Instruction.move 1)).pointer =
      ((sampleEdgeState.pointer + 1) % 30000 + 30000) % 30000 :=
  move_single_wrap_is_modular sampleEdgeState 1 (by decide) (by decide)
    (by decide) (by decide)

/-- C6: for every initial cell value `v < 256` and every delta `d` (the
`u8` bits of the `i8` payload), `Add(d)` leaves the cell under the pointer
at `(v + d) mod 256`. -/
theorem add_wrapping_byte (s : State) (v d : Nat) (hv : v < 256)
    (hmem : s.mem s.pointer = v) :
    (execInstr s (Instruction.add d)).mem s.pointer = (v + d) % 256 := by
  simp [execInstr, hmem]

/-- C6 witness: adding 300 to a cell holding 5 leaves `(5 + 300) % 256`. -/
theorem add_wrapping_byte_witness :
    (execInstr sampleFiveState (Instruction.add 300)).mem sampleFiveState.pointer =
      (5 + 300) % 256 :=
  add_wrapping_byte sampleFiveState 5 300 (by decide) rfl

/-- C8: the host read shim stores the byte 0 and returns a null error at
end of stream (both on an exhausted stream and on an explicit
`UnexpectedEof`), and it returns a non-null error only when the stream
actually produced a genuine I/O error. -/
theorem read_eof_stores_zero :
    (∀ w : Bool, hostRead w [] = (some 0, none)) ∧
    (∀ (w : Bool) (rest : List ReadOutcome),
        hostRead w (ReadOutcome.eofMark :: rest) = (some 0, none)) ∧
    (∀ (w : Bool) (evs : List ReadOutcome) (e : Nat),
        (hostRead w evs).2 = some e → ReadOutcome.ioErr e ∈ evs) := by
  refine ⟨fun w => rfl, fun w rest => rfl, fun w evs => ?_⟩
  induction evs with
  | nil => intro e h; simp [hostRead] at h
  | cons ev rest ih =>
    intro e h
    cases ev with
    | byte b =>
      rw [hostRead] at h
      split at h
      · exact List.mem_cons_of_mem _ (ih e h)
      · simp at h
    | eofMark => simp [hostRead] at h
    | ioErr e2 =>
      simp [hostRead] at h
      simp [h]

/-- C8 witness: a concrete empty stream stores 0 with a null error, and a
concrete genuine error is traced back to the stream. -/
theorem read_eof_stores_zero_witness :
    hostRead true [] = (some 0, none) ∧
    ReadOutcome.ioErr 3 ∈ [ReadOutcome.ioErr 3] :=
  ⟨read_eof_stores_zero.1 true,
   read_eof_stores_zero.2.2 true [ReadOutcome.ioErr 3] 3 rfl⟩

/-- C9: on a Windows host the write shim drops any byte with the high bit
set, returning a null error without touching standard output (whatever the
underlying stream would have done); on a non-Windows host a successful
write appends the byte and flushes it. -/
theorem write_windows_high_bit :
    (∀ (v : Nat) (s : OutState) (ioOk : Bool), 128 ≤ v →
        hostWrite true v s ioOk = (s, none)) ∧
    (∀ (v : Nat) (s : OutState),
        hostWrite false v s true =
          ({ buffered := [], flushed := s.flushed ++ s.buffered ++ [v] }, none)) := by
  constructor
  · intro v s ioOk hv
    simp [hostWrite, hv]
  · intro v s
    simp [hostWrite]

/-- C9 witness: byte 128 on Windows is dropped even when the stream would
fail, and on a non-Windows host it reaches the flushed stream. -/
theorem write_windows_high_bit_witness :
    hostWrite true 128 ⟨[], []⟩ false = (⟨[], []⟩, none) ∧
    hostWrite false 128 ⟨[], []⟩ true = (⟨[], [] ++ [] ++ [128]⟩, none) :=
  ⟨write_windows_high_bit.1 128 ⟨[], []⟩ false (by decide),
   write_windows_high_bit.2 128 ⟨[], []⟩⟩

/-- If the cell reaches zero after `t` body iterations, the fuelled loop
finds it within any fuel of at least `t`. -/
theorem clearLoop_halts (n : Nat) :
    ∀ (t v fuel : Nat), t ≤ fuel → (v + t * n) % 256 = 0 → v < 256 →
      clearLoop n fuel v = some 0 := by
  intro t
  induction t with
  | zero =>
    intro v fuel _ hhit hv
    have hv0 : v = 0 := by omega
    subst hv0
    cases fuel <;> simp [clearLoop]
  | succ t ih =>
    intro v fuel hle hhit hv
    obtain ⟨f, rfl⟩ : ∃ f, fuel = f + 1 := ⟨fuel - 1, by omega⟩
    rw [clearLoop]
    by_cases hv0 : v = 0
    · simp [hv0]
    · rw [if_neg hv0]
      refine ih ((v + n) % 256) f (by omega) ?_ (by omega)
      have hexp : v + (t + 1) * n = v + n + t * n := by ring
      rw [hexp] at hhit
      generalize hw : t * n = w at hhit ⊢
      omega

/-- For an odd delta `n` and any starting value `v < 256` there is a hit
within 255 iterations: `n` is invertible modulo 256 = 2^8. -/
theorem clearLoop_exists_hit (n v : Nat) (hn : n % 2 = 1) (hv : v < 256) :
    ∃ t, t ≤ 255 ∧ (v + t * n) % 256 = 0 := by
  have hc : Nat.Coprime n 256 := by
    have h2 : Nat.Coprime n 2 := Nat.coprime_two_right.mpr (Nat.odd_iff.mpr hn)
    have : (256 : Nat) = 2 ^ 8 := by norm_num
    rw [this]
    exact (Nat.coprime_pow_right_iff (by norm_num) n 2).mpr h2
  obtain ⟨m, hm⟩ := Nat.exists_mul_emod_eq_one_of_coprime hc (by norm_num)
  refine ⟨(256 - v) * m % 256, by omega, ?_⟩
  have hmn : (m * n) % 256 = 1 % 256 := by
    rw [mul_comm]
    simpa using hm
  have step1 : ((256 - v) * m % 256) * n ≡ (256 - v) * m * n [MOD 256] :=
    Nat.ModEq.mul_right n (Nat.mod_modEq ((256 - v) * m) 256)
  have step2 : (256 - v) * m * n ≡ (256 - v) * 1 [MOD 256] := by
    rw [mul_assoc]
    exact Nat.ModEq.mul_left (256 - v) hmn
  have step3 : v + ((256 - v) * m % 256) * n ≡ v + (256 - v) * 1 [MOD 256] :=
    Nat.ModEq.add_left v (step1.trans step2)
  have hval : (v + (256 - v) * 1) % 256 = 0 := by omega
  calc (v + (256 - v) * m % 256 * n) % 256
      = (v + (256 - v) * 1) % 256 := step3
    _ = 0 := hval

/-- C3: for every cell value `v < 256` and delta `n` odd modulo 256, the
loop `[ Add(n) ]` halts within 256 body iterations with the cell at 0; the
folder fuses a loop whose body is a single `Add(n)` with odd `n` into
`Clear` on the closing bracket; and the lowering of `Clear` stores 0 to
the cell under the pointer — the same end state. -/
theorem clear_idiom_sound (n v : Nat) (rest : List Instruction) (s : State)
    (hn2 : n < 256) (hn : n % 2 = 1) (hv : v < 256) :
    clearLoop n 256 v = some 0 ∧
    foldByte (Instruction.add n :: Instruction.jumpRight :: rest) 93 =
      Instruction.clear :: rest ∧
    (execInstr s Instruction.clear).mem s.pointer = 0 := by
  refine ⟨?_, ?_, by simp [execInstr]⟩
  · obtain ⟨t, ht, hhit⟩ := clearLoop_exists_hit n v hn hv
    exact clearLoop_halts n t v 256 (by omega) hhit hv
  · simp [foldByte, hn]

/-- C3 witness: the loop `[ Add(255) ]` from cell value 7 halts at 0 within
256 iterations, `]` after `JumpRight, Add(255)` fuses to `Clear`, and
`Clear` zeroes the cell. -/
theorem clear_idiom_sound_witness :
    clearLoop 255 256 7 = some 0 ∧
    foldByte (Instruction.add 255 :: Instruction.jumpRight :: []) 93 =
      Instruction.clear :: [] ∧
    (execInstr sampleFiveState Instruction.clear).mem sampleFiveState.pointer = 0 :=
  clear_idiom_sound 255 7 [] sampleFiveState (by decide) (by decide) (by decide)

/-- C10: the `AddTo` fusion guard `x == -y` also accepts displacement 0:
the source `[-><+><]` folds to `AddTo(0)`; executing `AddTo(0)` (at a
non-negative pointer) doubles the cell modulo 256, because the zero store
to the source is overwritten by the sum store to the same address; and the
literal unfused loop never terminates from a non-zero cell, whatever the
fuel. -/
theorem addTo_zero_guard :
    foldSource [91, 45, 62, 60, 43, 62, 60, 93] = [Instruction.addTo 0] ∧
    (∀ (s : State) (v : Nat), 0 ≤ s.pointer → s.mem s.pointer = v →
        (execInstr s (Instruction.addTo 0)).mem s.pointer = (2 * v) % 256) ∧
    (∀ (fuel v : Nat), v < 256 → v ≠ 0 → literalLoop fuel v = none) := by
  refine ⟨by decide, ?_, ?_⟩
  · intro s v hp hmem
    have hd : moveWrap s.pointer 0 = s.pointer := by
      unfold moveWrap
      split_ifs <;> omega
    simp [execInstr, hd, hmem, two_mul]
  · intro fuel
    induction fuel with
    | zero =>
      intro v _ hv0
      simp [literalLoop, hv0]
    | succ f ih =>
      intro v hv hv0
      rw [literalLoop, if_neg hv0]
      have hstep : ((v + 255) % 256 + 1) % 256 = v := by omega
      rw [hstep]
      exact ih v hv hv0

/-- C10 witness: the concrete fold, a doubled cell value, and a concrete
fuel bound on which the literal loop still has not terminated. -/
theorem addTo_zero_guard_witness :
    foldSource [91, 45, 62, 60, 43, 62, 60, 93] = [Instruction.addTo 0] ∧
    (execInstr sampleFiveState (Instruction.addTo 0)).mem sampleFiveState.pointer =
      (2 * 5) % 256 ∧
    literalLoop 5 3 = none :=
  ⟨addTo_zero_guard.1,
   addTo_zero_guard.2.1 sampleFiveState 5 (by decide) rfl,
   addTo_zero_guard.2.2 5 3 (by decide) (by decide)⟩

def cexAddToState : State := ⟨0, fun q => if q = 0 then 1 else 0⟩

def sampleAddToState : State := ⟨0, fun q => if q = 1 then 7 else 5⟩

/-- C4 (amended): for displacements `0 < |k| < 30000`, closing a loop whose
body folded to `Add(255) Move(k) Add(1) Move(-k)` fuses to `AddTo(k)`, and
executing `AddTo(k)` from a pointer `p ∈ [0, 30000)` with source cell `a`
and destination cell `b` at the modularly wrapped position
`((p + k) mod 30000 + 30000) mod 30000` leaves the source at 0 and the
destination at `(a + b) mod 256`.  For `|k| ≥ 30000` the single-wrap
destination and the modular destination part ways (see the
counterexample, where they coincide with the source itself). -/
theorem addTo_idiom_sound (s : State) (k : Int) (a b : Nat) (d : Int)
    (rest : List Instruction)
    (h0 : 0 ≤ s.pointer) (h1 : s.pointer < 30000)
    (hk0 : k ≠ 0) (hkl : -30000 < k) (hkr : k < 30000)
    (hd : d = ((s.pointer + k) % 30000 + 30000) % 30000)
    (ha : s.mem s.pointer = a) (hb : s.mem d = b) :
    foldByte (Instruction.move (-k) :: Instruction.add 1 :: Instruction.move k ::
        Instruction.add 255 :: Instruction.jumpRight :: rest) 93 =
      Instruction.addTo k :: rest ∧
    (execInstr s (Instruction.addTo k)).mem s.pointer = 0 ∧
    (execInstr s (Instruction.addTo k)).mem d = (a + b) % 256 := by
  have hwrap : moveWrap s.pointer k = d := by
    rw [hd]
    exact moveWrap_emod s.pointer k h0 h1 (by omega) (by omega)
  have hne : d ≠ s.pointer := by
    rw [hd]
    omega
  have hne2 : s.pointer ≠ d := fun h => hne h.symm
  refine ⟨by simp [foldByte], ?_, ?_⟩
  · simp [execInstr, hwrap, hne2]
  · simp [execInstr, hwrap, ha, hb, Nat.add_comm]

/-- C4 counterexample: with pointer 0 and `k = 30000`, the modularly
wrapped destination is the source cell itself; from cell value 1 the code
leaves the cell at 2, while the claim says the source cell ends at 0. -/
theorem addTo_idiom_sound_cex :
    (((0 : Int) + 30000) % 30000 + 30000) % 30000 = 0 ∧
    (execInstr cexAddToState (Instruction.addTo 30000)).mem 0 = 2 ∧
    (2 : Nat) ≠ 0 := by
  refine ⟨by decide, ?_, by decide⟩
  have hw : moveWrap 0 30000 = 0 := by decide
  simp [execInstr, cexAddToState, hw]

/-- C4 witness: `AddTo(1)` from pointer 0 on cells (5, 7) gives (0, 12),
and the matching loop body fuses. -/
theorem addTo_idiom_sound_witness :
    foldByte (Instruction.move (-1) :: Instruction.add 1 :: Instruction.move 1 ::
        Instruction.add 255 :: Instruction.jumpRight :: []) 93 =
      Instruction.addTo 1 :: [] ∧
    (execInstr sampleAddToState (Instruction.addTo 1)).mem sampleAddToState.pointer = 0 ∧
    (execInstr sampleAddToState (Instruction.addTo 1)).mem 1 = (5 + 7) % 256 :=
  addTo_idiom_sound sampleAddToState 1 5 7 1 [] (by decide) (by decide)
    (by decide) (by decide) (by decide) (by decide) rfl rfl

/-- A pending `Add(v)` absorbs a whole `+`/`-` run, accumulating modulo
256. -/
theorem foldl_add_run :
    ∀ (r : List Nat) (acc : List Instruction) (v : Nat), v < 256 →
      (∀ b ∈ r, b = 43 ∨ b = 45) →
      List.foldl foldByte (Instruction.add v :: acc) r =
        Instruction.add ((v + plusSum r) % 256) :: acc := by
  intro r
  induction r with
  | nil =>
    intro acc v hv _
    simp [plusSum, Nat.mod_eq_of_lt hv]
  | cons b rest ih =>
    intro acc v hv hr
    have hb : b = 43 ∨ b = 45 := hr b (List.mem_cons_self b rest)
    have hstep : foldByte (Instruction.add v :: acc) b =
        Instruction.add ((v + if b = 43 then 1 else 255) % 256) :: acc := by
      simp only [foldByte, if_pos hb]
    rw [List.foldl_cons, hstep,
      ih acc _ (Nat.mod_lt _ (by norm_num)) (fun c hc => hr c (List.mem_cons_of_mem b hc))]
    have harith : ((v + if b = 43 then 1 else 255) % 256 + plusSum rest) % 256 =
        (v + plusSum (b :: rest)) % 256 := by
      rw [Nat.mod_add_mod, plusSum, ← Nat.add_assoc]
    rw [harith]

/-- A pending `Move(v)` absorbs a whole `>`/`<` run, accumulating the
algebraic sum. -/
theorem foldl_move_run :
    ∀ (r : List Nat) (acc : List Instruction) (v : Int),
      (∀ b ∈ r, b = 62 ∨ b = 60) →
      List.foldl foldByte (Instruction.move v :: acc) r =
        Instruction.move (v + moveSum r) :: acc := by
  intro r
  induction r with
  | nil =>
    intro acc v _
    simp [moveSum]
  | cons b rest ih =>
    intro acc v hr
    have hb : b = 62 ∨ b = 60 := hr b (List.mem_cons_self b rest)
    have hb1 : ¬(b = 43 ∨ b = 45) := by omega
    have hb2 : ¬b = 46 := by omega
    have hb3 : ¬b = 44 := by omega
    have hstep : foldByte (Instruction.move v :: acc) b =
        Instruction.move (v + if b = 62 then 1 else -1) :: acc := by
      simp only [foldByte, if_neg hb1, if_neg hb2, if_neg hb3, if_pos hb]
    rw [List.foldl_cons, hstep,
      ih acc _ (fun c hc => hr c (List.mem_cons_of_mem b hc))]
    rw [moveSum, ← Int.add_assoc]


/-- `adjOk` looks only at the constructors, symmetrically. -/
theorem adjOk_symm (i j : Instruction) : adjOk i j = adjOk j i := by
  cases i <;> cases j <;> rfl

/-- Pushing an instruction that is neither an `Add` nor a `Move` keeps the
no-adjacent invariant. -/
theorem chain'_push_other (x : Instruction) (hxa : isAdd x = false)
    (hxm : isMove x = false) (acc : List Instruction)
    (h : List.Chain' (fun i j => adjOk i j = true) acc) :
    List.Chain' (fun i j => adjOk i j = true) (x :: acc) := by
  cases acc with
  | nil => exact List.chain'_singleton x
  | cons i rest => exact List.Chain'.cons (by simp [adjOk, hxa, hxm]) h

/-- Pushing an `Add` below a non-`Add` keeps the no-adjacent invariant. -/
theorem chain'_push_add (v : Nat) (acc : List Instruction)
    (hacc : headIsAdd acc = false)
    (h : List.Chain' (fun i j => adjOk i j = true) acc) :
    List.Chain' (fun i j => adjOk i j = true) (Instruction.add v :: acc) := by
  cases acc with
  | nil => exact List.chain'_singleton _
  | cons i rest =>
    cases i <;>
      first
        | exact List.Chain'.cons rfl h
        | exact absurd hacc (by simp [headIsAdd])

/-- Pushing a `Move` below a non-`Move` keeps the no-adjacent invariant. -/
theorem chain'_push_move (v : Int) (acc : List Instruction)
    (hacc : headIsMove acc = false)
    (h : List.Chain' (fun i j => adjOk i j = true) acc) :
    List.Chain' (fun i j => adjOk i j = true) (Instruction.move v :: acc) := by
  cases acc with
  | nil => exact List.chain'_singleton _
  | cons i rest =>
    cases i <;>
      first
        | exact List.Chain'.cons rfl h
        | exact absurd hacc (by simp [headIsMove])

/-- Replacing the payload of a leading `Add` keeps the invariant. -/
theorem chain'_replace_add (v w : Nat) (rest : List Instruction)
    (h : List.Chain' (fun i j => adjOk i j = true) (Instruction.add v :: rest)) :
    List.Chain' (fun i j => adjOk i j = true) (Instruction.add w :: rest) := by
  cases rest with
  | nil => exact List.chain'_singleton _
  | cons i l =>
    rcases List.chain'_cons.mp h with ⟨h1, h2⟩
    exact List.Chain'.cons h1 h2

/-- Replacing the payload of a leading `Move` keeps the invariant. -/
theorem chain'_replace_move (v w : Int) (rest : List Instruction)
    (h : List.Chain' (fun i j => adjOk i j = true) (Instruction.move v :: rest)) :
    List.Chain' (fun i j => adjOk i j = true) (Instruction.move w :: rest) := by
  cases rest with
  | nil => exact List.chain'_singleton _
  | cons i l =>
    rcases List.chain'_cons.mp h with ⟨h1, h2⟩
    exact List.Chain'.cons h1 h2

/-- One folding step preserves the no-adjacent invariant. -/
theorem foldByte_chain (acc : List Instruction) (b : Nat)
    (h : List.Chain' (fun i j => adjOk i j = true) acc) :
    List.Chain' (fun i j => adjOk i j = true) (foldByte acc b) := by
  by_cases h1 : b = 43 ∨ b = 45
  · unfold foldByte
    rw [if_pos h1]
    cases acc with
    | nil => exact List.chain'_singleton _
    | cons i rest =>
      cases i with
      | add v => exact chain'_replace_add v _ rest h
      | move w => exact List.Chain'.cons rfl h
      | input => exact List.Chain'.cons rfl h
      | output => exact List.Chain'.cons rfl h
      | jumpRight => exact List.Chain'.cons rfl h
      | jumpLeft => exact List.Chain'.cons rfl h
      | clear => exact List.Chain'.cons rfl h
      | addTo k => exact List.Chain'.cons rfl h
  · by_cases h2 : b = 46
    · unfold foldByte
      rw [if_neg h1, if_pos h2]
      exact chain'_push_other Instruction.output rfl rfl acc h
    · by_cases h3 : b = 44
      · unfold foldByte
        rw [if_neg h1, if_neg h2, if_pos h3]
        exact chain'_push_other Instruction.input rfl rfl acc h
      · by_cases h4 : b = 62 ∨ b = 60
        · unfold foldByte
          rw [if_neg h1, if_neg h2, if_neg h3, if_pos h4]
          cases acc with
          | nil => exact List.chain'_singleton _
          | cons i rest =>
            cases i with
            | move v => exact chain'_replace_move v _ rest h
            | add w => exact List.Chain'.cons rfl h
            | input => exact List.Chain'.cons rfl h
            | output => exact List.Chain'.cons rfl h
            | jumpRight => exact List.Chain'.cons rfl h
            | jumpLeft => exact List.Chain'.cons rfl h
            | clear => exact List.Chain'.cons rfl h
            | addTo k => exact List.Chain'.cons rfl h
        · by_cases h5 : b = 91
          · unfold foldByte
            rw [if_neg h1, if_neg h2, if_neg h3, if_neg h4, if_pos h5]
            exact chain'_push_other Instruction.jumpRight rfl rfl acc h
          · by_cases h6 : b = 93
            · unfold foldByte
              rw [if_neg h1, if_neg h2, if_neg h3, if_neg h4, if_neg h5, if_pos h6]
              split
              · rename_i n rest
                split_ifs
                · exact chain'_push_other Instruction.clear rfl rfl rest h.tail.tail
                · exact chain'_push_other Instruction.jumpLeft rfl rfl _ h
              · rename_i y x rest
                split_ifs
                · exact chain'_push_other (Instruction.addTo x) rfl rfl rest
                    h.tail.tail.tail.tail.tail
                · exact chain'_push_other Instruction.jumpLeft rfl rfl _ h
              · exact chain'_push_other Instruction.jumpLeft rfl rfl acc h
            · unfold foldByte
              rw [if_neg h1, if_neg h2, if_neg h3, if_neg h4, if_neg h5, if_neg h6]
              exact h

/-- A `+`/`-` byte arriving when the last emitted instruction is not an
`Add` pushes a fresh `Add(±1)`. -/
theorem foldByte_plus_push (acc : List Instruction) (b : Nat)
    (hb : b = 43 ∨ b = 45) (hacc : headIsAdd acc = false) :
    foldByte acc b = Instruction.add (if b = 43 then 1 else 255) :: acc := by
  unfold foldByte
  rw [if_pos hb]
  cases acc with
  | nil => rfl
  | cons i rest =>
    cases i <;> first | rfl | exact absurd hacc (by simp [headIsAdd])

/-- A `>`/`<` byte arriving when the last emitted instruction is not a
`Move` pushes a fresh `Move(±1)`. -/
theorem foldByte_move_push (acc : List Instruction) (b : Nat)
    (hb : b = 62 ∨ b = 60) (hacc : headIsMove acc = false) :
    foldByte acc b = Instruction.move (if b = 62 then 1 else -1) :: acc := by
  unfold foldByte
  rw [if_neg (by omega), if_neg (by omega), if_neg (by omega), if_pos hb]
  cases acc with
  | nil => rfl
  | cons i rest =>
    cases i <;> first | rfl | exact absurd hacc (by simp [headIsMove])

/-- Folding any source preserves the no-adjacent invariant. -/
theorem foldl_chain :
    ∀ (s : List Nat) (acc : List Instruction),
      List.Chain' (fun i j => adjOk i j = true) acc →
      List.Chain' (fun i j => adjOk i j = true) (List.foldl foldByte acc s) := by
  intro s
  induction s with
  | nil => intro acc h; exact h
  | cons b rest ih => intro acc h; exact ih _ (foldByte_chain acc b h)

/-- C5 (amended): a maximal `+`/`-` run arriving when the last emitted
instruction is not an `Add` collapses into exactly one `Add` whose delta
is the mod-256 sum of the run's ±1 contributions (encoded as `u8` bits);
symmetrically a `>`/`<` run arriving when the last instruction is not a
`Move` collapses into one `Move` carrying the algebraic sum; and no two
adjacent `Add`s and no two adjacent `Move`s ever appear in folded output.
When the last instruction is already an `Add` (e.g. two runs separated
only by comment bytes), the run merges into that earlier `Add` instead of
producing its own instruction — see the counterexample. -/
theorem run_folding_collapse :
    (∀ (acc : List Instruction) (r : List Nat), r ≠ [] →
        (∀ b ∈ r, b = 43 ∨ b = 45) → headIsAdd acc = false →
        List.foldl foldByte acc r = Instruction.add (plusSum r % 256) :: acc) ∧
    (∀ (acc : List Instruction) (r : List Nat), r ≠ [] →
        (∀ b ∈ r, b = 62 ∨ b = 60) → headIsMove acc = false →
        List.foldl foldByte acc r = Instruction.move (moveSum r) :: acc) ∧
    (∀ source : List Nat,
        List.Chain' (fun i j => adjOk i j = true) (foldSource source)) := by
  refine ⟨?_, ?_, ?_⟩
  · intro acc r hne hr hacc
    obtain ⟨b, rest, rfl⟩ : ∃ b rest, r = b :: rest := by
      cases r with
      | nil => exact absurd rfl hne
      | cons b rest => exact ⟨b, rest, rfl⟩
    rw [List.foldl_cons,
      foldByte_plus_push acc b (hr b (List.mem_cons_self b rest)) hacc,
      foldl_add_run rest acc _ (by split_ifs <;> norm_num)
        (fun c hc => hr c (List.mem_cons_of_mem b hc))]
    rfl
  · intro acc r hne hr hacc
    obtain ⟨b, rest, rfl⟩ : ∃ b rest, r = b :: rest := by
      cases r with
      | nil => exact absurd rfl hne
      | cons b rest => exact ⟨b, rest, rfl⟩
    rw [List.foldl_cons,
      foldByte_move_push acc b (hr b (List.mem_cons_self b rest)) hacc,
      foldl_move_run rest acc _
        (fun c hc => hr c (List.mem_cons_of_mem b hc))]
    rfl
  · intro source
    rw [foldSource, List.chain'_reverse]
    exact List.Chain'.imp
      (fun a b hab => show adjOk b a = true from adjOk_symm a b ▸ hab)
      (foldl_chain source [] List.chain'_nil)

/-- C5 counterexample: in `+a+` the two maximal `+` runs (each of modular
sum 1) do not each become a single `Add(1)`: the fold yields one `Add(2)`
and no `Add(1)` at all, because the second run merges across the comment
byte into the first run's instruction. -/
theorem run_folding_collapse_cex :
    foldSource [43, 97, 43] = [Instruction.add 2] ∧
    Instruction.add 1 ∉ foldSource [43, 97, 43] := by
  refine ⟨by decide, by decide⟩

/-- C5 witness: a `+-+` run from an empty stream folds to a single
`Add(1)`, a `><<` run folds to a single `Move(-1)`, and the folded output
of a mixed program satisfies the no-adjacent invariant. -/
theorem run_folding_collapse_witness :
    List.foldl foldByte [] [43, 45, 43] = [Instruction.add 1] ∧
    List.foldl foldByte [] [62, 60, 60] = [Instruction.move (-1)] ∧
    List.Chain' (fun i j => adjOk i j = true) (foldSource [43, 91, 45, 93, 62]) :=
  ⟨run_folding_collapse.1 [] [43, 45, 43] (by decide) (by decide) rfl,
   run_folding_collapse.2.1 [] [62, 60, 60] (by decide) (by decide) rfl,
   run_folding_collapse.2.2 [43, 91, 45, 93, 62]⟩

/-- `bw` distributes over append. -/
theorem bw_append : ∀ (l1 l2 : List Instruction), bw (l1 ++ l2) = bw l1 ++ bw l2 := by
  intro l1 l2
  induction l1 with
  | nil => rfl
  | cons i rest ih => simp [bw, ih]

/-- Bracket word of a reversed cons. -/
theorem bwR_cons (i : Instruction) (acc : List Instruction) :
    bw ((i :: acc).reverse) = bw acc.reverse ++ brOfInstr i := by
  rw [List.reverse_cons, bw_append]
  simp [bw]

/-- The unmatched-close count never decreases along a reduction. -/
theorem redFold_fst_le : ∀ (w : List Br) (a c : Nat),
    a ≤ (List.foldl redStep (a, c) w).1 := by
  intro w
  induction w with
  | nil => intro a c; exact le_refl a
  | cons x rest ih =>
    intro a c
    cases x with
    | op => exact ih a (c + 1)
    | cl =>
      cases c with
      | zero => exact le_trans (Nat.le_succ a) (ih (a + 1) 0)
      | succ c2 => exact ih a c2

/-- A non-bracket byte leaves the bracket word of the emitted stream
unchanged.  This covers run merging, all non-bracket pushes and comments. -/
theorem foldByte_bw_other (acc : List Instruction) (b : Nat)
    (h91 : b ≠ 91) (h93 : b ≠ 93) :
    bw (foldByte acc b).reverse = bw acc.reverse := by
  by_cases h1 : b = 43 ∨ b = 45
  · unfold foldByte
    rw [if_pos h1]
    cases acc with
    | nil => rfl
    | cons i rest =>
      cases i <;> simp [bw_append, bw, brOfInstr]
  · by_cases h2 : b = 46
    · unfold foldByte
      rw [if_neg h1, if_pos h2]
      simp [bw_append, bw, brOfInstr]
    · by_cases h3 : b = 44
      · unfold foldByte
        rw [if_neg h1, if_neg h2, if_pos h3]
        simp [bw_append, bw, brOfInstr]
      · by_cases h4 : b = 62 ∨ b = 60
        · unfold foldByte
          rw [if_neg h1, if_neg h2, if_neg h3, if_pos h4]
          cases acc with
          | nil => rfl
          | cons i rest =>
            cases i <;> simp [bw_append, bw, brOfInstr]
        · unfold foldByte
          rw [if_neg h1, if_neg h2, if_neg h3, if_neg h4, if_neg h91, if_neg h93]

/-- An open bracket appends an open to the bracket word. -/
theorem foldByte_bw_open (acc : List Instruction) :
    bw (foldByte acc 91).reverse = bw acc.reverse ++ [Br.op] := by
  unfold foldByte
  rw [if_neg (by omega), if_neg (by omega), if_neg (by omega), if_neg (by omega),
    if_pos rfl]
  simp [bw_append, bw, brOfInstr]

/-- A close bracket either appends a close to the bracket word (the
`JumpLeft` arm) or cancels the trailing open (the `Clear`/`AddTo` fusion
arms, whose drained tail contains exactly the matching `JumpRight`). -/
theorem foldByte_bw_close (acc : List Instruction) :
    bw (foldByte acc 93).reverse = bw acc.reverse ++ [Br.cl] ∨
      ∃ w, bw acc.reverse = w ++ [Br.op] ∧ bw (foldByte acc 93).reverse = w := by
  unfold foldByte
  rw [if_neg (by omega), if_neg (by omega), if_neg (by omega), if_neg (by omega),
    if_neg (by omega), if_pos rfl]
  split
  · rename_i n rest
    split_ifs
    · exact Or.inr ⟨bw rest.reverse, by simp [bw_append, bw, brOfInstr],
        by simp [bw_append, bw, brOfInstr]⟩
    · exact Or.inl (by simp [bw_append, bw, brOfInstr])
  · rename_i y x rest
    split_ifs
    · exact Or.inr ⟨bw rest.reverse, by simp [bw_append, bw, brOfInstr],
        by simp [bw_append, bw, brOfInstr]⟩
    · exact Or.inl (by simp [bw_append, bw, brOfInstr])
  · exact Or.inl (by simp [bw_append, bw, brOfInstr])

/-- One folding step changes the reduction state of the emitted bracket
word exactly as the byte's own bracket contribution does. -/
theorem foldByte_red (acc : List Instruction) (b : Nat) :
    List.foldl redStep (0, 0) (bw (foldByte acc b).reverse) =
      List.foldl redStep (List.foldl redStep (0, 0) (bw acc.reverse)) (brOfByte b) := by
  by_cases h91 : b = 91
  · subst h91
    rw [foldByte_bw_open, List.foldl_append]
    rfl
  · by_cases h93 : b = 93
    · subst h93
      rcases foldByte_bw_close acc with h | ⟨w, hw1, hw2⟩
      · rw [h, List.foldl_append]
        rfl
      · rw [hw2, hw1, List.foldl_append]
        generalize List.foldl redStep (0, 0) w = S
        obtain ⟨a, c⟩ := S
        rfl
    · rw [foldByte_bw_other acc b h91 h93,
        show brOfByte b = [] from by unfold brOfByte; rw [if_neg h91, if_neg h93]]
      rfl

/-- Folding a whole source changes the reduction state exactly as the
source's bracket word does. -/
theorem foldl_red : ∀ (s : List Nat) (acc : List Instruction),
    List.foldl redStep (0, 0) (bw (List.foldl foldByte acc s).reverse) =
      List.foldl redStep (List.foldl redStep (0, 0) (bw acc.reverse)) (bws s) := by
  intro s
  induction s with
  | nil => intro acc; rfl
  | cons b rest ih =>
    intro acc
    rw [List.foldl_cons, ih (foldByte acc b), foldByte_red,
      show bws (b :: rest) = brOfByte b ++ bws rest from rfl, List.foldl_append]

/-- The lowering loop accepts exactly when the bracket word of the
instruction stream reduces to the empty state. -/
theorem lowerGo_ok_iff :
    ∀ (instrs : List Instruction) (srcLen i depth : Nat),
      lowerGo srcLen instrs i depth = Except.ok () ↔
        List.foldl redStep (0, depth) (bw instrs) = (0, 0) := by
  intro instrs
  induction instrs with
  | nil =>
    intro srcLen i depth
    by_cases hd : depth = 0 <;> simp [lowerGo, bw, hd]
  | cons ins rest ih =>
    intro srcLen i depth
    cases ins with
    | jumpRight => exact ih srcLen (i + 1) (depth + 1)
    | jumpLeft =>
      cases depth with
      | zero =>
        have hm := redFold_fst_le (bw rest) 1 0
        constructor
        · intro h; exact Except.noConfusion h
        · intro h
          exfalso
          have : (1, 0) = redStep (0, 0) Br.cl := rfl
          rw [show List.foldl redStep (0, 0) (bw (Instruction.jumpLeft :: rest)) =
              List.foldl redStep (1, 0) (bw rest) from rfl] at h
          rw [h] at hm
          simp at hm
      | succ d => exact ih srcLen (i + 1) d
    | add n => exact ih srcLen (i + 1) depth
    | move k => exact ih srcLen (i + 1) depth
    | input => exact ih srcLen (i + 1) depth
    | output => exact ih srcLen (i + 1) depth
    | clear => exact ih srcLen (i + 1) depth
    | addTo k => exact ih srcLen (i + 1) depth

/-- Proper nesting of a source is exactly reduction of its bracket word to
the empty state. -/
theorem balancedFrom_iff :
    ∀ (s : List Nat) (depth : Nat),
      balancedFrom depth s = true ↔
        List.foldl redStep (0, depth) (bws s) = (0, 0) := by
  intro s
  induction s with
  | nil =>
    intro depth
    by_cases hd : depth = 0 <;> simp [balancedFrom, bws, hd]
  | cons b rest ih =>
    intro depth
    by_cases hb1 : b = 91
    · subst hb1
      rw [show balancedFrom depth (91 :: rest) = balancedFrom (depth + 1) rest from rfl]
      exact ih (depth + 1)
    · by_cases hb2 : b = 93
      · subst hb2
        cases depth with
        | zero =>
          have hm := redFold_fst_le (bws rest) 1 0
          constructor
          · intro h
            exact absurd h (by simp [balancedFrom])
          · intro h
            exfalso
            rw [show List.foldl redStep (0, 0) (bws (93 :: rest)) =
                List.foldl redStep (1, 0) (bws rest) from rfl] at h
            rw [h] at hm
            simp at hm
        | succ d =>
          rw [show balancedFrom (d + 1) (93 :: rest) = balancedFrom d rest from rfl]
          exact ih d
      · rw [show balancedFrom depth (b :: rest) =
            if b = 91 then balancedFrom (depth + 1) rest
            else if b = 93 then
              match depth with
              | 0 => false
              | d + 1 => balancedFrom d rest
            else balancedFrom depth rest from rfl,
          if_neg hb1, if_neg hb2,
          show bws (b :: rest) = brOfByte b ++ bws rest from rfl,
          show brOfByte b = [] from by unfold brOfByte; rw [if_neg hb1, if_neg hb2],
          List.nil_append]
        exact ih depth

/-- A non-command byte is a comment: the folding step ignores it. -/
theorem foldByte_comment (b : Nat) (h : isCommandByte b = false)
    (acc : List Instruction) : foldByte acc b = acc := by
  simp only [isCommandByte, Bool.or_eq_false_iff, decide_eq_false_iff_not] at h
  obtain ⟨⟨⟨⟨⟨⟨⟨h43, h45⟩, h46⟩, h44⟩, h62⟩, h60⟩, h91⟩, h93⟩ := h
  unfold foldByte
  rw [if_neg (by omega), if_neg h46, if_neg h44, if_neg (by omega),
    if_neg h91, if_neg h93]

/-- Dropping comment bytes does not change the fold. -/
theorem foldl_filter :
    ∀ (s : List Nat) (acc : List Instruction),
      List.foldl foldByte acc (s.filter isCommandByte) =
        List.foldl foldByte acc s := by
  intro s
  induction s with
  | nil => intro acc; rfl
  | cons b rest ih =>
    intro acc
    by_cases hb : isCommandByte b = true
    · rw [List.filter_cons_of_pos hb, List.foldl_cons, List.foldl_cons, ih]
    · rw [List.filter_cons_of_neg (by simpa using hb), List.foldl_cons,
        foldByte_comment b (by simpa using hb), ih]

/-- C7: `Program::new` accepts a source exactly when its `[`/`]` bytes are
properly nested, and bytes other than the eight command bytes are dropped
during lexing, so they cannot affect the folded stream, hence acceptance. -/
theorem accepts_iff_balanced (source : List Nat) :
    (programNew source = Except.ok () ↔ balancedFrom 0 source = true) ∧
    foldSource (source.filter isCommandByte) = foldSource source := by
  constructor
  · rw [programNew, lowerGo_ok_iff (foldSource source) source.length 0 0,
      balancedFrom_iff source 0, foldSource, foldl_red source []]
    exact Iff.rfl
  · rw [foldSource, foldSource, foldl_filter]

/-- The lowering loop errors with `(']', j)` at the first `JumpLeft` that
finds the stack empty, and otherwise either succeeds or reports
`(']', srcLen)` for a leftover open. -/
theorem lowerGo_firstClose :
    ∀ (instrs : List Instruction) (srcLen i depth : Nat),
      (∀ j, firstUnmatchedClose instrs i depth = some j →
          lowerGo srcLen instrs i depth = Except.error (']', j)) ∧
      (firstUnmatchedClose instrs i depth = none →
          lowerGo srcLen instrs i depth = Except.ok () ∨
            lowerGo srcLen instrs i depth = Except.error (']', srcLen)) := by
  intro instrs
  induction instrs with
  | nil =>
    intro srcLen i depth
    constructor
    · intro j hj
      exact absurd hj (by simp [firstUnmatchedClose])
    · intro _
      by_cases hd : depth = 0
      · exact Or.inl (by simp [lowerGo, hd])
      · exact Or.inr (by simp [lowerGo, hd])
  | cons ins rest ih =>
    intro srcLen i depth
    cases ins with
    | jumpRight => exact ih srcLen (i + 1) (depth + 1)
    | jumpLeft =>
      cases depth with
      | zero =>
        constructor
        · intro j hj
          have hij : i = j := by simpa [firstUnmatchedClose] using hj
          subst hij
          rfl
        · intro hnone
          exact absurd hnone (by simp [firstUnmatchedClose])
      | succ d => exact ih srcLen (i + 1) d
    | add n => exact ih srcLen (i + 1) depth
    | move k => exact ih srcLen (i + 1) depth
    | input => exact ih srcLen (i + 1) depth
    | output => exact ih srcLen (i + 1) depth
    | clear => exact ih srcLen (i + 1) depth
    | addTo k => exact ih srcLen (i + 1) depth

/-- C2 (amended): an unmatched close is reported as `UnbalancedBrackets`
with the character `]` and the *index in the folded instruction stream* of
the offending `JumpLeft` (not the byte position in the source); any
unmatched opens remaining at end of source are reported as `(']',
source.len())` — again the character `]`, not `[`, and the source length,
not the open's position. -/
theorem unbalanced_error_reports (source : List Nat) :
    (∀ j, firstUnmatchedClose (foldSource source) 0 0 = some j →
        programNew source = Except.error (']', j)) ∧
    (firstUnmatchedClose (foldSource source) 0 0 = none →
        programNew source ≠ Except.ok () →
        programNew source = Except.error (']', source.length)) := by
  constructor
  · intro j hj
    exact (lowerGo_firstClose (foldSource source) source.length 0 0).1 j hj
  · intro hnone hne
    rcases (lowerGo_firstClose (foldSource source) source.length 0 0).2 hnone with h | h
    · exact absurd h hne
    · exact h

/-- C2 counterexample: the source `[` (one byte, the open at byte position
0) is rejected with character `]` and position 1 = `source.len()`, not the
claimed `('[', 0)`; and in the source `a]` the close at byte position 1 is
reported at position 0, its index in the instruction stream. -/
theorem unbalanced_error_reports_cex :
    programNew [91] = Except.error (']', 1) ∧
    ((']' : Char), (1 : Nat)) ≠ ('[', 0) ∧
    programNew [97, 93] = Except.error (']', 0) ∧
    ((']' : Char), (0 : Nat)) ≠ (']', 1) :=
  ⟨rfl, by decide, rfl, by decide⟩

/-- C2 witness: both amended branches at concrete inputs. -/
theorem unbalanced_error_reports_witness :
    programNew [97, 93] = Except.error (']', 0) ∧
    programNew [91] = Except.error (']', 1) :=
  ⟨(unbalanced_error_reports [97, 93]).1 0 rfl,
   (unbalanced_error_reports [91]).2 rfl (fun h => Except.noConfusion h)⟩
